import Mathlib

/-!
Verification development for the `raug-fft` STFT subgraph engine.

The Rust source is shallowly embedded as follows:

* `f32` sample values are modelled as `ℚ` in the buffer/scheduling machinery
  (all operations there are ring operations), and as `ℝ` in the window
  normalisation (which divides by a square root).
* `VecDeque<f32>` ring buffers and overlap buffers are modelled as `List`s;
  `extend` is `++`, `drain(..k)` is `take`/`drop` from the front.
* Rust panics (out-of-bounds slicing, `unwrap` on a missing input port,
  `drain` beyond the deque length, Rust integer division by zero, and a
  diverging `while` loop) are modelled by a dedicated `panic` outcome.
* The inner DAG traversal (`FftGraph::process_node` over `visit_path`) is
  abstracted by a `runFrame` function that maps the staged windowed frames
  (the `Null` nodes' output buffers) to the frames read back from the
  declared output nodes, or to the first failing node's wrapped error,
  mirroring `FftProcessorNode::process` error tagging.
-/

namespace RaugFft

/-! ## Window generation and normalisation (`FftGraph::new`, graph.rs 50-74)

Modelled over `ℝ`: the window table holds `f32` values produced from
transcendental window families, and normalisation divides by `√S`.
-/

/-- Rust `slice::rotate_right(k)`: the last `k` elements move to the front.
Used with `k = N_FFT / 2 ≤ len`, where it equals this definition. -/
def rotateRight {α : Type} (l : List α) (k : Nat) : List α :=
  l.drop (l.length - k) ++ l.take (l.length - k)

/-- The quantity `window_sum` after the two mutations in `FftGraph::new`:
`S = (N_FFT / hop_length) * Σ w[i]^2`, computed on the rotated window.
The `N_FFT / hop_length` is Rust integer division (`overlapping_frames`). -/
noncomputable def windowSumS (nFft hopLength : Nat) (w0 : List ℝ) : ℝ :=
  ((nFft / hopLength : Nat) : ℝ) *
    (((rotateRight w0 (nFft / 2)).map fun x => x * x).sum)

open Classical in
/-- The window preparation in `FftGraph::new(hop_length, window_fn)`:
rotate right by `N_FFT / 2`, compute `S`, `assert_ne!(S, 0.0)`, divide every
coefficient by `√S`.  `none` models a construction failure: either the
division `N_FFT / 0` panics (`hopLength = 0`) or the assertion fires. -/
noncomputable def fftGraphNewWindow (nFft hopLength : Nat) (w0 : List ℝ) :
    Option (List ℝ) :=
  if hopLength = 0 then none
  else if windowSumS nFft hopLength w0 = 0 then none
  else some ((rotateRight w0 (nFft / 2)).map fun x =>
    x / Real.sqrt (windowSumS nFft hopLength w0))

/-! ## Errors (lib.rs / raug `ProcessorError`, node.rs `ProcessNodeError`)

`subGraphError name inner` models `ProcessorError::SubGraphError(Box::new(
ProcessNodeError { error: inner, node_name: name }))`. -/

inductive ProcessorError where
  | processingError (cause : String)
  | subGraphError (nodeName : String) (error : ProcessorError)
deriving DecidableEq

/-- `ProcessNodeError` (node.rs 110-113): the failing node's name together
with the error its processor returned. -/
abbrev ProcessNodeError := String × ProcessorError

/-- Outcome of a Rust call that can also panic (index out of bounds,
`unwrap` failure, divergence).  `panic` is distinct from a returned `Err`. -/
inductive ProcOutcome (α : Type) where
  | ok (value : α)
  | err (e : ProcessorError)
  | panic
deriving DecidableEq

/-! ## Per-port state (node.rs `FftInput`, `FftOutput`) -/

/-- `FftInput<F>`: the input ring buffer and the reusable time-domain
staging frame. -/
structure FftInputState where
  ringBuffer : List ℚ
  timeDomain : List ℚ
deriving DecidableEq

/-- `FftInput::default()`: empty ring buffer, zeroed length-`N` frame. -/
def FftInputState.default (nFft : Nat) : FftInputState :=
  { ringBuffer := [], timeDomain := List.replicate nFft 0 }

/-- `FftOutput<F>`: the output sample ring buffer and the overlap-add buffer. -/
structure FftOutputState where
  ringBuffer : List ℚ
  overlapBuffer : List ℚ
deriving DecidableEq

/-- `FftOutput::default()` (node.rs 176-184): empty ring buffer (capacity
`N_FFT`), overlap buffer `vec![0.0; N_FFT]`. -/
def FftOutputState.default (nFft : Nat) : FftOutputState :=
  { ringBuffer := [], overlapBuffer := List.replicate nFft 0 }

/-- The `FftGraph` fields manipulated by `process_inner` (graph.rs 20-30).
The `sample_rate` field and the DAG structure itself do not affect the
buffer scheduling and are abstracted away (`runFrame` stands for one DAG
traversal). -/
structure FftGraphState where
  blockSize : Nat
  hopLength : Nat
  window : List ℚ
  inputs : List FftInputState
  outputs : List FftOutputState
deriving DecidableEq

/-! ## `FftGraph::process_inner` (graph.rs 127-225) -/

/-- The windowed staging frame written per input each frame (graph.rs
158-167): `time_domain[i] = ring_buffer[i] * window[i]` for `i < N_FFT`.
That same frame is copied into the input's `Null` node output buffer. -/
def stagedFrame (nFft : Nat) (window : List ℚ) (inp : FftInputState) : List ℚ :=
  (List.range nFft).map fun i => inp.ringBuffer.getD i 0 * window.getD i 0

/-- One output's overlap-add and hop emission (graph.rs 190-203):
`overlap[i] += y[i] * window[i]` for `i < N_FFT`, then
`ring_buffer.extend(overlap.drain(..hop))` and `hop` zeros are pushed. -/
def olaStep (nFft hopLength : Nat) (window : List ℚ) (y : List ℚ)
    (out : FftOutputState) : FftOutputState :=
  let ov := (List.range out.overlapBuffer.length).map fun i =>
    if i < nFft then out.overlapBuffer.getD i 0 + y.getD i 0 * window.getD i 0
    else out.overlapBuffer.getD i 0
  { ringBuffer := out.ringBuffer ++ ov.take hopLength
    overlapBuffer := ov.drop hopLength ++ List.replicate hopLength 0 }

/-- The loop over `self.outputs` (graph.rs 185-204), pairing the `k`-th
declared output with the frame read from its `InverseRealFft` node. -/
def olaAll (nFft hopLength : Nat) (window : List ℚ) :
    List FftOutputState → List (List ℚ) → List FftOutputState
  | [], _ => []
  | o :: rest, frames =>
      olaStep nFft hopLength window (frames.headD []) o ::
        olaAll nFft hopLength window rest frames.tail

/-- The ingest loop (graph.rs 145-153): each input ring buffer is extended
with the first `blockSize` samples of its outer input buffer.  The caller
(`processInner`) checks the panic conditions first. -/
def ingestInputs (blockSize : Nat) :
    List FftInputState → List (List ℚ) → List FftInputState
  | [], _ => []
  | inp :: rest, outer =>
      { inp with
          ringBuffer := inp.ringBuffer ++ (outer.headD []).take blockSize } ::
        ingestInputs blockSize rest outer.tail

/-- `input_buffer_length`: minimum ring-buffer length over all inputs,
folded from a `usize::MAX` seed (graph.rs 142, 152). -/
def minLength (inputs : List FftInputState) : Nat :=
  (inputs.map fun inp => inp.ringBuffer.length).foldl min (2 ^ 64 - 1)

/-- One iteration of the frame loop body (graph.rs 157-204): stage and
window every input, drop `hop` samples from every input ring buffer,
traverse the DAG (`runFrame`), then overlap-add into every output.
Panics if any buffer is too short for the indexing / `drain` calls. -/
def frameBody (nFft hopLength : Nat) (window : List ℚ)
    (runFrame : List (List ℚ) → Except ProcessNodeError (List (List ℚ)))
    (inputs : List FftInputState) (outputs : List FftOutputState) :
    ProcOutcome (List FftInputState × List FftOutputState) :=
  if ∃ inp ∈ inputs,
      inp.ringBuffer.length < nFft ∨ inp.ringBuffer.length < hopLength then
    .panic
  else
    match runFrame (inputs.map (stagedFrame nFft window)) with
    | .error ne => .err (.subGraphError ne.1 ne.2)
    | .ok frames =>
      if ∃ o ∈ outputs,
          o.overlapBuffer.length < nFft ∨ o.overlapBuffer.length < hopLength then
        .panic
      else
        .ok (inputs.map fun inp =>
              { ringBuffer := inp.ringBuffer.drop hopLength
                timeDomain := stagedFrame nFft window inp },
             olaAll nFft hopLength window outputs frames)

/-- The `while input_buffer_length >= fft_length` loop (graph.rs 156-205).
Each pass decrements the tracked length by `hop`; `fuel` (instantiated with
the initial tracked length) bounds the number of passes, and exhaustion
models the diverging loop that arises when `hop = 0` or `nFft = 0`, which
never happens for a constructed graph. -/
def frameLoopAux (nFft hopLength : Nat) (window : List ℚ)
    (runFrame : List (List ℚ) → Except ProcessNodeError (List (List ℚ))) :
    Nat → List FftInputState → List FftOutputState → Nat →
    ProcOutcome (List FftInputState × List FftOutputState)
  | 0, _, _, _ => .panic
  | fuel + 1, inputs, outputs, inputBufferLength =>
    if inputBufferLength < nFft then .ok (inputs, outputs)
    else
      match frameBody nFft hopLength window runFrame inputs outputs with
      | .panic => .panic
      | .err e => .err e
      | .ok (inputs', outputs') =>
          frameLoopAux nFft hopLength window runFrame fuel inputs' outputs'
            (inputBufferLength - hopLength)

/-- The egress loop (graph.rs 207-222): per output, if the ring buffer
holds fewer than `env.block_size()` samples, log the underrun and skip;
otherwise pop exactly `env.block_size()` samples from the front and write
them to the outer output in order.  `none` = the outer port is untouched. -/
def egress (envBlockSize : Nat) (outputs : List FftOutputState) :
    List FftOutputState × List (Option (List ℚ)) :=
  (outputs.map fun o =>
      if o.ringBuffer.length < envBlockSize then o
      else { o with ringBuffer := o.ringBuffer.drop envBlockSize },
   outputs.map fun o =>
      if o.ringBuffer.length < envBlockSize then none
      else some (o.ringBuffer.take envBlockSize))

/-- `FftGraph::process_inner` (graph.rs 127-225).  `outerInputs` are the
outer-graph input buffers, `envBlockSize` is `inputs.block_size()` from the
per-call `ProcEnv`; note ingest slices with the *stored* `self.block_size`.
Returns the updated state together with, per output, either `some` written
block or `none` when that outer port was left untouched. -/
def processInner (nFft : Nat)
    (runFrame : List (List ℚ) → Except ProcessNodeError (List (List ℚ)))
    (st : FftGraphState) (outerInputs : List (List ℚ)) (envBlockSize : Nat) :
    ProcOutcome (FftGraphState × List (Option (List ℚ))) :=
  if st.inputs = [] then
    .ok (st, st.outputs.map fun _ => none)
  else if outerInputs.length < st.inputs.length then
    .panic
  else if ∃ b ∈ outerInputs.take st.inputs.length, b.length < st.blockSize then
    .panic
  else
    match frameLoopAux nFft st.hopLength st.window runFrame
        (minLength (ingestInputs st.blockSize st.inputs outerInputs))
        (ingestInputs st.blockSize st.inputs outerInputs) st.outputs
        (minLength (ingestInputs st.blockSize st.inputs outerInputs)) with
    | .panic => .panic
    | .err e => .err e
    | .ok (inputs2, outputs2) =>
        .ok ({ st with inputs := inputs2
                       outputs := (egress envBlockSize outputs2).1 },
             (egress envBlockSize outputs2).2)

/-! ## DAG traversal (graph.rs 176-182, node.rs 94-117)

Each node is abstracted to its name together with the result its processor
returns for the current frame. -/

/-- The traversal loop over `visit_path` with `FftProcessorNode::process`
error tagging: the first node whose processor fails yields
`ProcessNodeError { error, node_name }` and stops the traversal. -/
def traverseNodes :
    List (String × Except ProcessorError Unit) → Except ProcessNodeError Unit
  | [] => .ok ()
  | (name, res) :: rest =>
    match res with
    | .error e => .error (name, e)
    | .ok _ => traverseNodes rest

/-- A `runFrame` built from a concrete node list: traverse, then (on
success) read back the output nodes' frames `g staged`. -/
def runFrameWithNodes (nodes : List (String × Except ProcessorError Unit))
    (g : List (List ℚ) → List (List ℚ)) :
    List (List ℚ) → Except ProcessNodeError (List (List ℚ)) :=
  fun staged =>
    match traverseNodes nodes with
    | .error ne => .error ne
    | .ok _ => .ok (g staged)

/-! ## `InverseRealFft::process` staging (builtins/transforms.rs 129-160) -/

/-- One `Complex32` bin; `f32` parts modelled as `ℚ`. -/
structure Complex32 where
  re : ℚ
  im : ℚ
deriving DecidableEq

/-- transforms.rs 137-140: `irfft_input.copy_from_slice(input)` (panics,
modelled as `none`, unless the lengths agree), then the imaginary parts of
bin `0` (DC) and bin `N_REAL_BINS - 1` (Nyquist) are forced to zero. -/
def stageIrfftInput (nRealBins : Nat) (input : List Complex32) :
    Option (List Complex32) :=
  if input.length = nRealBins then
    some ((List.range input.length).map fun i =>
      if i = 0 ∨ i = nRealBins - 1 then { input.getD i ⟨0, 0⟩ with im := 0 }
      else input.getD i ⟨0, 0⟩)
  else none

/-- One frame of `InverseRealFft::process`: stage the spectrum (with the
realness guard), then run the pre-planned complex-to-real transform. -/
def inverseRealFftFrame (nRealBins : Nat)
    (invTransform : List Complex32 → List ℚ) (input : List Complex32) :
    Option (List ℚ) :=
  (stageIrfftInput nRealBins input).map invTransform

end RaugFft

namespace RaugFft

/-- Helper: pulling a division out of a list sum. -/
theorem sum_map_div (l : List ℝ) (f : ℝ → ℝ) (c : ℝ) :
    (l.map fun x => f x / c).sum = (l.map f).sum / c := by
  induction l with
  | nil => simp
  | cons a t ih => simp [ih, add_div]

/-- Helper: `S` is a nonnegative real (integer factor times a sum of squares). -/
theorem windowSumS_nonneg (nFft hopLength : Nat) (w0 : List ℝ) :
    0 ≤ windowSumS nFft hopLength w0 := by
  unfold windowSumS
  apply mul_nonneg (Nat.cast_nonneg _)
  apply List.sum_nonneg
  intro x hx
  rcases List.mem_map.mp hx with ⟨y, _, rfl⟩
  exact mul_self_nonneg y

/-- C2: for every window list and every hop length accepted at construction,
`FftGraph::new` rotates the window right by `N/2`, computes
`S = (N/H) * Σ w[i]^2` and divides every coefficient by `√S`, so that the
stored window satisfies `(N/H) * Σ window[i]^2 = 1` (exactly, in the real
model of the `f32` arithmetic). -/
theorem window_normalisation (nFft hopLength : Nat) (w0 w : List ℝ)
    (h : fftGraphNewWindow nFft hopLength w0 = some w) :
    ((nFft / hopLength : Nat) : ℝ) * (w.map fun x => x * x).sum = 1 := by
  unfold fftGraphNewWindow at h
  split_ifs at h with h0 hS
  have hw : w = (rotateRight w0 (nFft / 2)).map fun x =>
      x / Real.sqrt (windowSumS nFft hopLength w0) := by
    exact (Option.some.injEq _ _).mp h.symm
  subst hw
  set S := windowSumS nFft hopLength w0 with hSdef
  have hS0 : 0 ≤ S := windowSumS_nonneg nFft hopLength w0
  have hsqrt : Real.sqrt S * Real.sqrt S = S := Real.mul_self_sqrt hS0
  rw [List.map_map]
  have hfun : ((fun x => x * x) ∘ fun x => x / Real.sqrt S)
      = fun x => (x * x) / S := by
    funext x
    simp only [Function.comp]
    rw [div_mul_div_comm, hsqrt]
  rw [hfun]
  rw [sum_map_div (rotateRight w0 (nFft / 2)) (fun x => x * x) S]
  rw [mul_div_assoc']
  have : ((nFft / hopLength : Nat) : ℝ) *
      ((rotateRight w0 (nFft / 2)).map fun x => x * x).sum = S := by
    rw [hSdef]; rfl
  rw [this]
  exact div_self hS

/-- Witness for C2 at `nFft = 1`, `hopLength = 1`, `w0 = [1]`. -/
theorem window_normalisation_witness :
    ((1 / 1 : Nat) : ℝ) * (([(1 : ℝ)]).map fun x => x * x).sum = 1 :=
  window_normalisation 1 1 [1] [1] (by
    simp [fftGraphNewWindow, windowSumS, rotateRight, Real.sqrt_one])

/-- C8: for hop lengths that survive the integer division, construction
fails (the `assert_ne!` fires) iff the computed `S = (N/H) * Σ w[i]^2` is
zero, and succeeds whenever `S` is nonzero. -/
theorem construction_failure (nFft hopLength : Nat) (w0 : List ℝ)
    (hH : hopLength ≠ 0) :
    (fftGraphNewWindow nFft hopLength w0 = none ↔
      windowSumS nFft hopLength w0 = 0) ∧
    (windowSumS nFft hopLength w0 ≠ 0 →
      ∃ w, fftGraphNewWindow nFft hopLength w0 = some w) := by
  constructor
  · unfold fftGraphNewWindow
    rw [if_neg hH]
    by_cases hS : windowSumS nFft hopLength w0 = 0
    · simp [hS]
    · simp [hS]
  · intro hS
    unfold fftGraphNewWindow
    rw [if_neg hH, if_neg hS]
    exact ⟨_, rfl⟩

/-- Witness for C8 at `nFft = 1`, `hopLength = 1`, `w0 = [1]`. -/
theorem construction_failure_witness :
    (fftGraphNewWindow 1 1 [1] = none ↔ windowSumS 1 1 [1] = 0) ∧
    (windowSumS 1 1 [1] ≠ 0 → ∃ w, fftGraphNewWindow 1 1 [1] = some w) :=
  construction_failure 1 1 [1] (by decide)

/-- Helper: `getD` through a `map` at an in-range index. -/
theorem getD_map_lt {α β : Type} (f : α → β) :
    ∀ (l : List α) (k : Nat), k < l.length → ∀ (d : α) (d' : β),
      (l.map f).getD k d' = f (l.getD k d) := by
  intro l
  induction l with
  | nil => intro k hk; simp at hk
  | cons a t ih =>
    intro k hk d d'
    cases k with
    | zero => simp
    | succ m =>
      simp only [List.map_cons, List.getD_cons_succ]
      exact ih m (by simpa using hk) d d'

/-- Helper: the overlap buffer keeps its length through one `olaStep`
(it loses `hop` entries to the ring buffer and gains `hop` zeros). -/
theorem olaStep_overlap_length (nFft hopLength : Nat) (window y : List ℚ)
    (out : FftOutputState) (hH : hopLength ≤ out.overlapBuffer.length) :
    (olaStep nFft hopLength window y out).overlapBuffer.length
      = out.overlapBuffer.length := by
  simp only [olaStep, List.length_append, List.length_drop, List.length_map,
    List.length_range, List.length_replicate]
  omega

/-- Helper: `olaStep` does not shrink the output ring buffer. -/
theorem olaStep_ring_prefix (nFft hopLength : Nat) (window y : List ℚ)
    (out : FftOutputState) :
    ∃ extra, (olaStep nFft hopLength window y out).ringBuffer
      = out.ringBuffer ++ extra :=
  ⟨_, rfl⟩

/-- Helper: every output of `olaAll` is an `olaStep` image of the
corresponding input output-state. -/
theorem olaAll_mem (nFft hopLength : Nat) (window : List ℚ) :
    ∀ (outs : List FftOutputState) (frames : List (List ℚ)),
      ∀ o' ∈ olaAll nFft hopLength window outs frames,
        ∃ o ∈ outs, ∃ y, o' = olaStep nFft hopLength window y o := by
  intro outs
  induction outs with
  | nil => intro frames o' h; simp [olaAll] at h
  | cons o rest ih =>
    intro frames o' h
    simp only [olaAll, List.mem_cons] at h
    rcases h with h | h
    · exact ⟨o, List.mem_cons_self o rest, frames.headD [], h⟩
    · rcases ih frames.tail o' h with ⟨o0, ho0, y, hy⟩
      exact ⟨o0, List.mem_cons_of_mem o ho0, y, hy⟩

/-- Inversion of a successful `frameBody` run: the panic guards did not
fire, the traversal succeeded, every input lost its first `hop` samples,
and every output went through one overlap-add step. -/
theorem frameBody_ok_elim {nFft hopLength : Nat} {window : List ℚ}
    {runFrame : List (List ℚ) → Except ProcessNodeError (List (List ℚ))}
    {inputs ins' : List FftInputState} {outputs outs' : List FftOutputState}
    (hb : frameBody nFft hopLength window runFrame inputs outputs
      = .ok (ins', outs')) :
    (∀ inp ∈ inputs,
      nFft ≤ inp.ringBuffer.length ∧ hopLength ≤ inp.ringBuffer.length) ∧
    (∀ o ∈ outputs,
      nFft ≤ o.overlapBuffer.length ∧ hopLength ≤ o.overlapBuffer.length) ∧
    ins' = inputs.map (fun inp =>
      { ringBuffer := inp.ringBuffer.drop hopLength
        timeDomain := stagedFrame nFft window inp }) ∧
    ∃ frames, runFrame (inputs.map (stagedFrame nFft window)) = .ok frames ∧
      outs' = olaAll nFft hopLength window outputs frames := by
  unfold frameBody at hb
  by_cases h1 : ∃ inp ∈ inputs,
      inp.ringBuffer.length < nFft ∨ inp.ringBuffer.length < hopLength
  · rw [if_pos h1] at hb
    exact (ProcOutcome.noConfusion hb)
  · rw [if_neg h1] at hb
    cases hrf : runFrame (inputs.map (stagedFrame nFft window)) with
    | error ne =>
      rw [hrf] at hb
      dsimp only at hb
      exact (ProcOutcome.noConfusion hb)
    | ok frames =>
      rw [hrf] at hb
      dsimp only at hb
      by_cases h2 : ∃ o ∈ outputs,
          o.overlapBuffer.length < nFft ∨ o.overlapBuffer.length < hopLength
      · rw [if_pos h2] at hb
        exact (ProcOutcome.noConfusion hb)
      · rw [if_neg h2] at hb
        injection hb with hpair
        rw [Prod.mk.injEq] at hpair
        obtain ⟨hins, houts⟩ := hpair
        push_neg at h1 h2
        refine ⟨?_, ?_, hins.symm, frames, rfl, houts.symm⟩
        · intro inp hi
          have := h1 inp hi
          omega
        · intro o ho
          have := h2 o ho
          omega

/-- Helper: a successful frame loop preserves "every overlap buffer has
length `nFft`". -/
theorem frameLoopAux_ok_overlap {nFft hopLength : Nat} {window : List ℚ}
    {runFrame : List (List ℚ) → Except ProcessNodeError (List (List ℚ))} :
    ∀ (fuel : Nat) (ins : List FftInputState) (outs : List FftOutputState)
      (l : Nat) (ins' : List FftInputState) (outs' : List FftOutputState),
      (∀ o ∈ outs, o.overlapBuffer.length = nFft) →
      frameLoopAux nFft hopLength window runFrame fuel ins outs l
        = .ok (ins', outs') →
      ∀ o ∈ outs', o.overlapBuffer.length = nFft := by
  intro fuel
  induction fuel with
  | zero =>
    intro ins outs l ins' outs' hinv hb
    exact (ProcOutcome.noConfusion hb)
  | succ f ih =>
    intro ins outs l ins' outs' hinv hb
    unfold frameLoopAux at hb
    by_cases hl : l < nFft
    · rw [if_pos hl] at hb
      injection hb with hpair
      rw [Prod.mk.injEq] at hpair
      obtain ⟨_, houts⟩ := hpair
      subst houts
      exact hinv
    · rw [if_neg hl] at hb
      cases hfb : frameBody nFft hopLength window runFrame ins outs with
      | panic => rw [hfb] at hb; exact (ProcOutcome.noConfusion hb)
      | err e => rw [hfb] at hb; exact (ProcOutcome.noConfusion hb)
      | ok p =>
        obtain ⟨ins1, outs1⟩ := p
        rw [hfb] at hb
        dsimp only at hb
        obtain ⟨-, houts, -, frames, -, houts1⟩ := frameBody_ok_elim hfb
        refine ih ins1 outs1 (l - hopLength) ins' outs' ?_ hb
        intro o' ho'
        subst houts1
        rcases olaAll_mem nFft hopLength window outs frames o' ho'
          with ⟨o, ho, y, rfl⟩
        rw [olaStep_overlap_length nFft hopLength window y o (houts o ho).2]
        exact hinv o ho

/-- Helper: a successful frame loop run started with all input ring buffers
of length exactly `l` (the tracked minimum) drains some common multiple of
`hopLength` from every input and exits with the tracked length below
`nFft`. -/
theorem frameLoopAux_ok_inputs {nFft hopLength : Nat} {window : List ℚ}
    {runFrame : List (List ℚ) → Except ProcessNodeError (List (List ℚ))} :
    ∀ (fuel : Nat) (ins : List FftInputState) (outs : List FftOutputState)
      (l : Nat) (ins' : List FftInputState) (outs' : List FftOutputState),
      ins ≠ [] →
      (∀ inp ∈ ins, inp.ringBuffer.length = l) →
      frameLoopAux nFft hopLength window runFrame fuel ins outs l
        = .ok (ins', outs') →
      ∃ k, k * hopLength ≤ l ∧ l - k * hopLength < nFft ∧
        ∀ inp ∈ ins', inp.ringBuffer.length = l - k * hopLength := by
  intro fuel
  induction fuel with
  | zero =>
    intro ins outs l ins' outs' hne hlen hb
    exact (ProcOutcome.noConfusion hb)
  | succ f ih =>
    intro ins outs l ins' outs' hne hlen hb
    unfold frameLoopAux at hb
    by_cases hl : l < nFft
    · rw [if_pos hl] at hb
      injection hb with hpair
      rw [Prod.mk.injEq] at hpair
      obtain ⟨hins, -⟩ := hpair
      subst hins
      exact ⟨0, by omega, by omega, by simpa using hlen⟩
    · rw [if_neg hl] at hb
      cases hfb : frameBody nFft hopLength window runFrame ins outs with
      | panic => rw [hfb] at hb; exact (ProcOutcome.noConfusion hb)
      | err e => rw [hfb] at hb; exact (ProcOutcome.noConfusion hb)
      | ok p =>
        obtain ⟨ins1, outs1⟩ := p
        rw [hfb] at hb
        dsimp only at hb
        obtain ⟨hins, -, hins1, -⟩ := frameBody_ok_elim hfb
        have hne1 : ins1 ≠ [] := by
          subst hins1
          simpa using hne
        have hlen1 : ∀ inp ∈ ins1, inp.ringBuffer.length = l - hopLength := by
          subst hins1
          intro inp1 h1
          rcases List.mem_map.mp h1 with ⟨inp, hmem, rfl⟩
          simp only [List.length_drop]
          rw [hlen inp hmem]
        rcases ih ins1 outs1 (l - hopLength) ins' outs' hne1 hlen1 hb
          with ⟨k, hk1, hk2, hk3⟩
        have hHl : hopLength ≤ l := by
          rcases List.exists_mem_of_ne_nil ins hne with ⟨inp, hmem⟩
          have := (hins inp hmem).2
          rw [hlen inp hmem] at this
          exact this
        refine ⟨k + 1, ?_, ?_, ?_⟩
        · rw [Nat.succ_mul]
          omega
        · rw [Nat.succ_mul]
          omega
        · rw [Nat.succ_mul]
          intro inp hmem
          rw [hk3 inp hmem]
          omega

/-- Helper: ingesting preserves nonemptiness of the input list. -/
theorem ingestInputs_ne_nil (blockSize : Nat) (ins : List FftInputState)
    (outer : List (List ℚ)) (hne : ins ≠ []) :
    ingestInputs blockSize ins outer ≠ [] := by
  cases ins with
  | nil => exact absurd rfl hne
  | cons a t => simp [ingestInputs]

/-- Helper: when every outer input holds at least `blockSize` samples,
ingest extends every ring buffer by exactly `blockSize`. -/
theorem ingestInputs_lengths (blockSize l0 : Nat) :
    ∀ (ins : List FftInputState) (outer : List (List ℚ)),
      ins.length ≤ outer.length →
      (∀ inp ∈ ins, inp.ringBuffer.length = l0) →
      (∀ b ∈ outer.take ins.length, blockSize ≤ b.length) →
      ∀ inp' ∈ ingestInputs blockSize ins outer,
        inp'.ringBuffer.length = l0 + blockSize := by
  intro ins
  induction ins with
  | nil => intro outer _ _ _ inp' h; simp [ingestInputs] at h
  | cons inp rest ih =>
    intro outer hlen hring htake inp' h
    cases outer with
    | nil => simp at hlen
    | cons b t =>
      simp only [List.length_cons, List.take_succ_cons] at hlen htake
      simp only [ingestInputs, List.headD_cons, List.tail_cons,
        List.mem_cons] at h
      rcases h with h | h
      · subst h
        have hb : blockSize ≤ b.length := htake b (List.mem_cons_self _ _)
        have hr := hring inp (List.mem_cons_self _ _)
        simp only [List.length_append, List.length_take, hr]
        omega
      · exact ih t (by omega)
          (fun x hx => hring x (List.mem_cons_of_mem _ hx))
          (fun x hx => htake x (List.mem_cons_of_mem _ hx)) inp' h

/-- Helper: folding `min` over a nonempty list of equal values. -/
theorem foldl_min_all_eq (l0 : Nat) :
    ∀ (l : List Nat) (seed : Nat), l ≠ [] → (∀ x ∈ l, x = l0) →
      l.foldl min seed = min seed l0 := by
  intro l
  induction l with
  | nil => intro seed h; exact absurd rfl h
  | cons a t ih =>
    intro seed _ hall
    have ha : a = l0 := hall a (List.mem_cons_self _ _)
    subst ha
    cases t with
    | nil => simp
    | cons b t2 =>
      have hstep := ih (min seed a) (by simp)
        (fun x hx => hall x (List.mem_cons_of_mem _ hx))
      simp only [List.foldl_cons] at hstep ⊢
      rw [hstep, min_assoc, min_self]

/-- Helper: `input_buffer_length` equals the common input length when all
input ring buffers agree (and fit in a `usize`). -/
theorem minLength_eq (ins : List FftInputState) (l0 : Nat)
    (hne : ins ≠ []) (hall : ∀ inp ∈ ins, inp.ringBuffer.length = l0)
    (hsmall : l0 ≤ 2 ^ 64 - 1) :
    minLength ins = l0 := by
  unfold minLength
  rw [foldl_min_all_eq l0 (ins.map fun inp => inp.ringBuffer.length)
    (2 ^ 64 - 1) (by simpa using hne) ?_]
  · exact min_eq_right hsmall
  · intro x hx
    rcases List.mem_map.mp hx with ⟨inp, hmem, rfl⟩
    exact hall inp hmem

/-- Inversion of a successful `processInner` call with at least one
declared input: both ingest panic guards passed, the frame loop succeeded,
and the result state and writes come from `egress`. -/
theorem processInner_ok_elim {nFft : Nat}
    {runFrame : List (List ℚ) → Except ProcessNodeError (List (List ℚ))}
    {st : FftGraphState} {outer : List (List ℚ)} {envB : Nat}
    {st' : FftGraphState} {writes : List (Option (List ℚ))}
    (hne : st.inputs ≠ [])
    (hrun : processInner nFft runFrame st outer envB = .ok (st', writes)) :
    st.inputs.length ≤ outer.length ∧
    (∀ b ∈ outer.take st.inputs.length, st.blockSize ≤ b.length) ∧
    ∃ ins2 outs2,
      frameLoopAux nFft st.hopLength st.window runFrame
          (minLength (ingestInputs st.blockSize st.inputs outer))
          (ingestInputs st.blockSize st.inputs outer) st.outputs
          (minLength (ingestInputs st.blockSize st.inputs outer))
        = .ok (ins2, outs2) ∧
      st' = { st with inputs := ins2, outputs := (egress envB outs2).1 } ∧
      writes = (egress envB outs2).2 := by
  unfold processInner at hrun
  rw [if_neg hne] at hrun
  by_cases h2 : outer.length < st.inputs.length
  · rw [if_pos h2] at hrun
    exact (ProcOutcome.noConfusion hrun)
  · rw [if_neg h2] at hrun
    by_cases h3 : ∃ b ∈ outer.take st.inputs.length, b.length < st.blockSize
    · rw [if_pos h3] at hrun
      exact (ProcOutcome.noConfusion hrun)
    · rw [if_neg h3] at hrun
      push_neg at h2 h3
      cases hfl : frameLoopAux nFft st.hopLength st.window runFrame
          (minLength (ingestInputs st.blockSize st.inputs outer))
          (ingestInputs st.blockSize st.inputs outer) st.outputs
          (minLength (ingestInputs st.blockSize st.inputs outer)) with
      | panic => rw [hfl] at hrun; exact (ProcOutcome.noConfusion hrun)
      | err e => rw [hfl] at hrun; exact (ProcOutcome.noConfusion hrun)
      | ok p =>
        obtain ⟨ins2, outs2⟩ := p
        rw [hfl] at hrun
        dsimp only at hrun
        injection hrun with hpair
        rw [Prod.mk.injEq] at hpair
        obtain ⟨hst, hw⟩ := hpair
        exact ⟨h2, h3, ins2, outs2, rfl, hst.symm, hw.symm⟩

/-- Helper: egress rewrites ring buffers only; every overlap buffer is
carried over unchanged. -/
theorem egress_fst_overlap (envB : Nat) (outs : List FftOutputState) :
    ∀ o' ∈ (egress envB outs).1, ∃ o ∈ outs,
      o'.overlapBuffer = o.overlapBuffer := by
  intro o' h
  simp only [egress] at h
  rcases List.mem_map.mp h with ⟨o, ho, rfl⟩
  refine ⟨o, ho, ?_⟩
  by_cases hc : o.ringBuffer.length < envB
  · rw [if_pos hc]
  · rw [if_neg hc]

/-- Helper: egress does not change ring-buffer membership structure for
inputs (it only touches `outputs`); the inputs of the post state are the
frame-loop inputs. (Trivial projection fact used by C4/C5.) -/
theorem egress_snd_length (envB : Nat) (outs : List FftOutputState) :
    (egress envB outs).1.length = outs.length ∧
    (egress envB outs).2.length = outs.length := by
  simp [egress]

/-- C3: every declared audio output's overlap buffer has length exactly
`nFft` immediately after construction (`FftOutput::default`) and after
every successful `process` call, given it had length `nFft` before the
call; the frame loop drains exactly `hop` entries and pushes exactly `hop`
zeros per emitted frame, and no other operation changes its length. -/
theorem overlap_buffer_length_invariant (nFft : Nat)
    (runFrame : List (List ℚ) → Except ProcessNodeError (List (List ℚ)))
    (st : FftGraphState) (outer : List (List ℚ)) (envB : Nat)
    (st' : FftGraphState) (writes : List (Option (List ℚ)))
    (hinv : ∀ o ∈ st.outputs, o.overlapBuffer.length = nFft)
    (hrun : processInner nFft runFrame st outer envB = .ok (st', writes)) :
    (FftOutputState.default nFft).overlapBuffer.length = nFft ∧
    ∀ o ∈ st'.outputs, o.overlapBuffer.length = nFft := by
  refine ⟨by simp [FftOutputState.default], ?_⟩
  by_cases hne : st.inputs = []
  · unfold processInner at hrun
    rw [if_pos hne] at hrun
    injection hrun with hpair
    rw [Prod.mk.injEq] at hpair
    obtain ⟨hst, -⟩ := hpair
    subst hst
    exact hinv
  · obtain ⟨-, -, ins2, outs2, hfl, hst, -⟩ := processInner_ok_elim hne hrun
    subst hst
    intro o' ho'
    dsimp only at ho'
    rcases egress_fst_overlap envB outs2 o' ho' with ⟨o, ho, hov⟩
    rw [hov]
    exact frameLoopAux_ok_overlap _ _ _ _ _ _ hinv hfl o ho

/-- Witness for C3 on a concrete one-input, one-output run. -/
theorem overlap_buffer_length_invariant_witness :
    (FftOutputState.default 2).overlapBuffer.length = 2 ∧
    ∀ o ∈ ({ blockSize := 1, hopLength := 1, window := [1, 1],
             inputs := [{ ringBuffer := [1], timeDomain := [0, 0] }],
             outputs := [FftOutputState.default 2] } : FftGraphState).outputs,
      o.overlapBuffer.length = 2 :=
  overlap_buffer_length_invariant 2 (fun staged => .ok staged)
    { blockSize := 1, hopLength := 1, window := [1, 1],
      inputs := [{ ringBuffer := [], timeDomain := [0, 0] }],
      outputs := [FftOutputState.default 2] }
    [[1]] 1
    { blockSize := 1, hopLength := 1, window := [1, 1],
      inputs := [{ ringBuffer := [1], timeDomain := [0, 0] }],
      outputs := [FftOutputState.default 2] }
    [none]
    (by decide) (by decide)

/-- C4: one `process` call removes the same multiple of `hop` samples from
every input ring buffer (the frame loop advances all inputs in lockstep),
so if all input ring buffers agree in length before the call they agree
after it — in particular they are congruent modulo `hop`. -/
theorem input_lockstep (nFft : Nat)
    (runFrame : List (List ℚ) → Except ProcessNodeError (List (List ℚ)))
    (st : FftGraphState) (outer : List (List ℚ)) (envB : Nat)
    (st' : FftGraphState) (writes : List (Option (List ℚ))) (l0 : Nat)
    (hlen : ∀ inp ∈ st.inputs, inp.ringBuffer.length = l0)
    (hsmall : l0 + st.blockSize ≤ 2 ^ 64 - 1)
    (hrun : processInner nFft runFrame st outer envB = .ok (st', writes)) :
    ∃ k, k * st.hopLength ≤ l0 + st.blockSize ∧
      ∀ inp ∈ st'.inputs,
        inp.ringBuffer.length = l0 + st.blockSize - k * st.hopLength := by
  by_cases hne : st.inputs = []
  · unfold processInner at hrun
    rw [if_pos hne] at hrun
    injection hrun with hpair
    rw [Prod.mk.injEq] at hpair
    obtain ⟨hst, -⟩ := hpair
    subst hst
    refine ⟨0, by omega, ?_⟩
    rw [hne]
    intro inp h
    cases h
  · obtain ⟨houter, htake, ins2, outs2, hfl, hst, -⟩ :=
      processInner_ok_elim hne hrun
    have hing := ingestInputs_lengths st.blockSize l0 st.inputs outer
      houter hlen htake
    have hingne := ingestInputs_ne_nil st.blockSize st.inputs outer hne
    have hmin := minLength_eq _ (l0 + st.blockSize) hingne hing hsmall
    rw [hmin] at hfl
    rcases frameLoopAux_ok_inputs _ _ _ _ _ _ hingne hing hfl
      with ⟨k, hk1, hk2, hk3⟩
    subst hst
    exact ⟨k, hk1, fun inp hmem => hk3 inp hmem⟩

/-- Witness for C4 on a concrete one-input run. -/
theorem input_lockstep_witness :
    ∃ k, k * 1 ≤ 0 + 1 ∧
      ∀ inp ∈ ({ blockSize := 1, hopLength := 1, window := [1, 1],
                 inputs := [{ ringBuffer := [1], timeDomain := [0, 0] }],
                 outputs := [FftOutputState.default 2] }
                : FftGraphState).inputs,
        inp.ringBuffer.length = 0 + 1 - k * 1 :=
  input_lockstep 2 (fun staged => .ok staged)
    { blockSize := 1, hopLength := 1, window := [1, 1],
      inputs := [{ ringBuffer := [], timeDomain := [0, 0] }],
      outputs := [FftOutputState.default 2] }
    [[1]] 1
    { blockSize := 1, hopLength := 1, window := [1, 1],
      inputs := [{ ringBuffer := [1], timeDomain := [0, 0] }],
      outputs := [FftOutputState.default 2] }
    [none] 0
    (by decide) (by decide) (by decide)

/-- C5: for every declared audio input, after a successful `process` call
the input ring buffer length is strictly below `nFft + blockSize` (the
frame loop drains hops until the tracked minimum falls below `nFft`). -/
theorem input_ring_buffer_bound (nFft : Nat)
    (runFrame : List (List ℚ) → Except ProcessNodeError (List (List ℚ)))
    (st : FftGraphState) (outer : List (List ℚ)) (envB : Nat)
    (st' : FftGraphState) (writes : List (Option (List ℚ))) (l0 : Nat)
    (hlen : ∀ inp ∈ st.inputs, inp.ringBuffer.length = l0)
    (hsmall : l0 + st.blockSize ≤ 2 ^ 64 - 1)
    (hrun : processInner nFft runFrame st outer envB = .ok (st', writes)) :
    ∀ inp ∈ st'.inputs, inp.ringBuffer.length < nFft + st.blockSize := by
  by_cases hne : st.inputs = []
  · unfold processInner at hrun
    rw [if_pos hne] at hrun
    injection hrun with hpair
    rw [Prod.mk.injEq] at hpair
    obtain ⟨hst, -⟩ := hpair
    subst hst
    rw [hne]
    intro inp h
    cases h
  · obtain ⟨houter, htake, ins2, outs2, hfl, hst, -⟩ :=
      processInner_ok_elim hne hrun
    have hing := ingestInputs_lengths st.blockSize l0 st.inputs outer
      houter hlen htake
    have hingne := ingestInputs_ne_nil st.blockSize st.inputs outer hne
    have hmin := minLength_eq _ (l0 + st.blockSize) hingne hing hsmall
    rw [hmin] at hfl
    rcases frameLoopAux_ok_inputs _ _ _ _ _ _ hingne hing hfl
      with ⟨k, hk1, hk2, hk3⟩
    subst hst
    intro inp hmem
    rw [hk3 inp hmem]
    omega

/-- C6: at egress, an output whose sample ring buffer holds fewer than
`env.block_size()` samples is skipped (nothing is written, the ring buffer
is untouched) and an output with enough samples has exactly
`env.block_size()` samples popped from the front and written in order;
egress is total (no panic) and whenever the call reaches egress it
returns `Ok`. -/
theorem egress_underrun_handling (envB : Nat) (outs : List FftOutputState) :
    (egress envB outs).1.length = outs.length ∧
    (egress envB outs).2.length = outs.length ∧
    (∀ k, k < outs.length →
      (outs.getD k ⟨[], []⟩).ringBuffer.length < envB →
      (egress envB outs).2.getD k (some []) = none ∧
      (egress envB outs).1.getD k ⟨[], []⟩ = outs.getD k ⟨[], []⟩) ∧
    (∀ k, k < outs.length →
      envB ≤ (outs.getD k ⟨[], []⟩).ringBuffer.length →
      (egress envB outs).2.getD k none
        = some ((outs.getD k ⟨[], []⟩).ringBuffer.take envB) ∧
      ((outs.getD k ⟨[], []⟩).ringBuffer.take envB).length = envB ∧
      ((egress envB outs).1.getD k ⟨[], []⟩).ringBuffer
        = (outs.getD k ⟨[], []⟩).ringBuffer.drop envB) ∧
    (∀ (nFft : Nat)
       (runFrame : List (List ℚ) → Except ProcessNodeError (List (List ℚ)))
       (st : FftGraphState) (outer : List (List ℚ))
       (ins2 : List FftInputState),
      st.inputs ≠ [] →
      ¬ outer.length < st.inputs.length →
      (¬ ∃ b ∈ outer.take st.inputs.length, b.length < st.blockSize) →
      frameLoopAux nFft st.hopLength st.window runFrame
          (minLength (ingestInputs st.blockSize st.inputs outer))
          (ingestInputs st.blockSize st.inputs outer) st.outputs
          (minLength (ingestInputs st.blockSize st.inputs outer))
        = .ok (ins2, outs) →
      processInner nFft runFrame st outer envB
        = .ok ({ st with inputs := ins2, outputs := (egress envB outs).1 },
               (egress envB outs).2)) := by
  refine ⟨by simp [egress], by simp [egress], ?_, ?_, ?_⟩
  · intro k hk hu
    unfold egress
    dsimp only
    constructor
    · rw [getD_map_lt _ outs k hk ⟨[], []⟩ (some [])]
      exact if_pos hu
    · rw [getD_map_lt _ outs k hk ⟨[], []⟩ (⟨[], []⟩ : FftOutputState)]
      exact if_pos hu
  · intro k hk hfull
    have hnu : ¬ (outs.getD k ⟨[], []⟩).ringBuffer.length < envB := by omega
    unfold egress
    dsimp only
    refine ⟨?_, ?_, ?_⟩
    · rw [getD_map_lt _ outs k hk ⟨[], []⟩ none]
      exact if_neg hnu
    · rw [List.length_take]
      omega
    · rw [getD_map_lt _ outs k hk ⟨[], []⟩ (⟨[], []⟩ : FftOutputState)]
      rw [if_neg hnu]
  · intro nFft runFrame st outer ins2 hne h2 h3 hfl
    unfold processInner
    rw [if_neg hne, if_neg h2, if_neg h3, hfl]

/-- Witness for C6: first output has enough samples (one popped), second
output underruns (untouched). -/
theorem egress_underrun_handling_witness :
    (egress 1 [⟨[5], [0]⟩, ⟨[], [0]⟩]).2.getD 0 none
      = some (([(5 : ℚ)]).take 1) ∧
    (egress 1 [⟨[5], [0]⟩, ⟨[], [0]⟩]).2.getD 1 (some []) = none ∧
    (egress 1 [⟨[5], [0]⟩, ⟨[], [0]⟩]).1.getD 1 ⟨[], []⟩ = ⟨[], [0]⟩ :=
  ⟨((egress_underrun_handling 1 [⟨[5], [0]⟩, ⟨[], [0]⟩]).2.2.2.1 0
      (by decide) (by decide)).1,
   ((egress_underrun_handling 1 [⟨[5], [0]⟩, ⟨[], [0]⟩]).2.2.1 1
      (by decide) (by decide)).1,
   ((egress_underrun_handling 1 [⟨[5], [0]⟩, ⟨[], [0]⟩]).2.2.1 1
      (by decide) (by decide)).2⟩

/-- Witness for C5 on a concrete one-input run, instantiated at the single
post-state input. -/
theorem input_ring_buffer_bound_witness :
    ({ ringBuffer := [1], timeDomain := [0, 0] }
      : FftInputState).ringBuffer.length < 2 + 1 :=
  input_ring_buffer_bound 2 (fun staged => .ok staged)
    { blockSize := 1, hopLength := 1, window := [1, 1],
      inputs := [{ ringBuffer := [], timeDomain := [0, 0] }],
      outputs := [FftOutputState.default 2] }
    [[1]] 1
    { blockSize := 1, hopLength := 1, window := [1, 1],
      inputs := [{ ringBuffer := [1], timeDomain := [0, 0] }],
      outputs := [FftOutputState.default 2] }
    [none] 0
    (by decide) (by decide) (by decide)
    { ringBuffer := [1], timeDomain := [0, 0] } (by decide)

/-- Helper: the traversal stops at the first failing node and reports its
name together with the error it returned. -/
theorem traverseNodes_first_error :
    ∀ (pre : List (String × Except ProcessorError Unit)) (name : String)
      (e : ProcessorError) (post : List (String × Except ProcessorError Unit)),
      (∀ p ∈ pre, p.2 = .ok ()) →
      traverseNodes (pre ++ (name, .error e) :: post) = .error (name, e) := by
  intro pre
  induction pre with
  | nil =>
    intro name e post _
    simp [traverseNodes]
  | cons p t ih =>
    intro name e post hpre
    obtain ⟨pname, pres⟩ := p
    have hp : pres = .ok () := hpre (pname, pres) (List.mem_cons_self _ _)
    subst hp
    simp only [List.cons_append]
    unfold traverseNodes
    exact ih name e post fun q hq => hpre q (List.mem_cons_of_mem _ hq)

/-- Helper: a frame whose traversal fails makes `frameBody` return the
wrapped `SubGraphError` (provided the staging guards pass). -/
theorem frameBody_err_of_runFrame_err (nFft hopLength : Nat)
    (window : List ℚ)
    (runFrame : List (List ℚ) → Except ProcessNodeError (List (List ℚ)))
    (inputs : List FftInputState) (outputs : List FftOutputState)
    (name : String) (e : ProcessorError)
    (hin : ∀ inp ∈ inputs,
      nFft ≤ inp.ringBuffer.length ∧ hopLength ≤ inp.ringBuffer.length)
    (hrf : runFrame (inputs.map (stagedFrame nFft window))
      = .error (name, e)) :
    frameBody nFft hopLength window runFrame inputs outputs
      = .err (.subGraphError name e) := by
  have hcond : ¬ ∃ inp ∈ inputs,
      inp.ringBuffer.length < nFft ∨ inp.ringBuffer.length < hopLength := by
    rintro ⟨inp, hmem, hor⟩
    have := hin inp hmem
    omega
  unfold frameBody
  rw [if_neg hcond, hrf]

/-- Helper: if the first frame's body errors, the frame loop errors. -/
theorem frameLoopAux_err_first (nFft hopLength : Nat) (window : List ℚ)
    (runFrame : List (List ℚ) → Except ProcessNodeError (List (List ℚ)))
    (fuel : Nat) (ins : List FftInputState) (outs : List FftOutputState)
    (l : Nat) (e : ProcessorError)
    (hfuel : 1 ≤ fuel) (hl : nFft ≤ l)
    (hbody : frameBody nFft hopLength window runFrame ins outs = .err e) :
    frameLoopAux nFft hopLength window runFrame fuel ins outs l = .err e := by
  obtain ⟨f, rfl⟩ : ∃ f, fuel = f + 1 := ⟨fuel - 1, by omega⟩
  unfold frameLoopAux
  rw [if_neg (by omega), hbody]

/-- C7: when a node's processor fails during the DAG traversal, the
subgraph's `process` call returns `Err(SubGraphError(..))` wrapping the
failing node's name and inner error, and the outer-block call is aborted
(the result is the error, so egress is never reached and nothing is
written). -/
theorem error_propagation (nFft : Nat) (st : FftGraphState)
    (outer : List (List ℚ)) (envB : Nat)
    (pre post : List (String × Except ProcessorError Unit))
    (name : String) (e : ProcessorError)
    (g : List (List ℚ) → List (List ℚ)) (l0 : Nat)
    (hpre : ∀ p ∈ pre, p.2 = .ok ())
    (hne : st.inputs ≠ [])
    (hlen : ∀ inp ∈ st.inputs, inp.ringBuffer.length = l0)
    (houter : st.inputs.length ≤ outer.length)
    (hblk : ∀ b ∈ outer.take st.inputs.length, st.blockSize ≤ b.length)
    (hN1 : 1 ≤ nFft) (hNl : nFft ≤ l0 + st.blockSize)
    (hH : st.hopLength ≤ nFft)
    (hsmall : l0 + st.blockSize ≤ 2 ^ 64 - 1) :
    processInner nFft (runFrameWithNodes (pre ++ (name, .error e) :: post) g)
      st outer envB = .err (.subGraphError name e) := by
  have htrav := traverseNodes_first_error pre name e post hpre
  have hing := ingestInputs_lengths st.blockSize l0 st.inputs outer
    houter hlen hblk
  have hingne := ingestInputs_ne_nil st.blockSize st.inputs outer hne
  have hmin := minLength_eq _ (l0 + st.blockSize) hingne hing hsmall
  have hrf : runFrameWithNodes (pre ++ (name, .error e) :: post) g
      ((ingestInputs st.blockSize st.inputs outer).map
        (stagedFrame nFft st.window))
      = .error (name, e) := by
    unfold runFrameWithNodes
    rw [htrav]
  have hin : ∀ inp ∈ ingestInputs st.blockSize st.inputs outer,
      nFft ≤ inp.ringBuffer.length ∧
      st.hopLength ≤ inp.ringBuffer.length := by
    intro inp hmem
    have := hing inp hmem
    omega
  have hbody := frameBody_err_of_runFrame_err nFft st.hopLength st.window
    (runFrameWithNodes (pre ++ (name, .error e) :: post) g)
    (ingestInputs st.blockSize st.inputs outer) st.outputs name e hin hrf
  have hfl := frameLoopAux_err_first nFft st.hopLength st.window
    (runFrameWithNodes (pre ++ (name, .error e) :: post) g)
    (minLength (ingestInputs st.blockSize st.inputs outer))
    (ingestInputs st.blockSize st.inputs outer) st.outputs
    (minLength (ingestInputs st.blockSize st.inputs outer))
    (.subGraphError name e) (by omega) (by omega) hbody
  have hc3 : ¬ ∃ b ∈ outer.take st.inputs.length,
      b.length < st.blockSize := by
    rintro ⟨b, hmem, hlt⟩
    have := hblk b hmem
    omega
  unfold processInner
  rw [if_neg hne, if_neg (by omega), if_neg hc3, hfl]

/-- Witness for C7: a single failing node makes the concrete call fail
with the wrapped error. -/
theorem error_propagation_witness :
    processInner 1
      (runFrameWithNodes [("RealFft", .error (.processingError "bad"))]
        (fun staged => staged))
      { blockSize := 1, hopLength := 1, window := [1],
        inputs := [{ ringBuffer := [], timeDomain := [0] }],
        outputs := [] }
      [[5]] 1 = .err (.subGraphError "RealFft" (.processingError "bad")) :=
  error_propagation 1
    { blockSize := 1, hopLength := 1, window := [1],
      inputs := [{ ringBuffer := [], timeDomain := [0] }],
      outputs := [] }
    [[5]] 1 [] [] "RealFft" (.processingError "bad") (fun staged => staged) 0
    (by simp) (by decide) (by decide) (by decide) (by decide)
    (by decide) (by decide) (by decide) (by decide)

/-- Helper: `getD` of a mapped `range` list at an in-range index. -/
theorem getD_range_map {β : Type} (f : Nat → β) (n k : Nat) (d : β)
    (hk : k < n) : ((List.range n).map f).getD k d = f k := by
  rw [getD_map_lt f (List.range n) k (by simpa using hk) 0 d]
  have hr : (List.range n).getD k 0 = k := by
    rw [List.getD_eq_getElem?_getD, List.getElem?_range hk]
    rfl
  rw [hr]

/-- C9: on every frame, `InverseRealFft::process` zeroes the imaginary
parts of bin `0` (DC) and bin `R-1` (Nyquist) of the staged input spectrum
before invoking the pre-planned complex-to-real transform, regardless of
the values upstream processors supplied; all real parts and all other bins
are copied unchanged. -/
theorem inverse_fft_realness_guard (nRealBins : Nat) (input : List Complex32)
    (hR : 1 ≤ nRealBins) (hlen : input.length = nRealBins) :
    ∃ staged, stageIrfftInput nRealBins input = some staged ∧
      staged.length = nRealBins ∧
      (staged.getD 0 ⟨0, 0⟩).im = 0 ∧
      (staged.getD (nRealBins - 1) ⟨0, 0⟩).im = 0 ∧
      (∀ i, (staged.getD i ⟨0, 0⟩).re = (input.getD i ⟨0, 0⟩).re) ∧
      (∀ i, i ≠ 0 → i ≠ nRealBins - 1 →
        staged.getD i ⟨0, 0⟩ = input.getD i ⟨0, 0⟩) ∧
      ∀ invTransform : List Complex32 → List ℚ,
        inverseRealFftFrame nRealBins invTransform input
          = some (invTransform staged) := by
  have hsome : stageIrfftInput nRealBins input
      = some ((List.range input.length).map fun i =>
          if i = 0 ∨ i = nRealBins - 1 then { input.getD i ⟨0, 0⟩ with im := 0 }
          else input.getD i ⟨0, 0⟩) := by
    unfold stageIrfftInput
    rw [if_pos hlen]
  refine ⟨_, hsome, ?_, ?_, ?_, ?_, ?_, ?_⟩
  · simp [hlen]
  · rw [getD_range_map _ input.length 0 (⟨0, 0⟩ : Complex32) (by omega)]
    simp
  · rw [getD_range_map _ input.length (nRealBins - 1) (⟨0, 0⟩ : Complex32) (by omega)]
    simp
  · intro i
    by_cases hi : i < input.length
    · rw [getD_range_map _ input.length i (⟨0, 0⟩ : Complex32) hi]
      by_cases hc : i = 0 ∨ i = nRealBins - 1
      · rw [if_pos hc]
      · rw [if_neg hc]
    · rw [List.getD_eq_default, List.getD_eq_default]
      · omega
      · simp
        omega
  · intro i h0 hR1
    by_cases hi : i < input.length
    · rw [getD_range_map _ input.length i (⟨0, 0⟩ : Complex32) hi]
      rw [if_neg (by tauto)]
    · rw [List.getD_eq_default, List.getD_eq_default]
      · omega
      · simp
        omega
  · intro invTransform
    unfold inverseRealFftFrame
    rw [hsome]
    rfl

/-- Witness for C9 at `R = 2` with nonzero imaginary parts supplied. -/
theorem inverse_fft_realness_guard_witness :
    ∃ staged, stageIrfftInput 2 [⟨1, 5⟩, ⟨2, 7⟩] = some staged ∧
      staged.length = 2 ∧
      (staged.getD 0 ⟨0, 0⟩).im = 0 ∧
      (staged.getD (2 - 1) ⟨0, 0⟩).im = 0 ∧
      (∀ i, (staged.getD i ⟨0, 0⟩).re
        = (([⟨1, 5⟩, ⟨2, 7⟩] : List Complex32).getD i ⟨0, 0⟩).re) ∧
      (∀ i, i ≠ 0 → i ≠ 2 - 1 →
        staged.getD i ⟨0, 0⟩
          = (([⟨1, 5⟩, ⟨2, 7⟩] : List Complex32).getD i ⟨0, 0⟩)) ∧
      ∀ invTransform : List Complex32 → List ℚ,
        inverseRealFftFrame 2 invTransform [⟨1, 5⟩, ⟨2, 7⟩]
          = some (invTransform staged) :=
  inverse_fft_realness_guard 2 [⟨1, 5⟩, ⟨2, 7⟩] (by decide) (by decide)

/-- Helper: an in-range `getD` element belongs to any sufficiently long
`take` prefix. -/
theorem getD_take_mem {α : Type} (d : α) :
    ∀ (l : List α) (n k : Nat), k < n → k < l.length →
      l.getD k d ∈ l.take n := by
  intro l
  induction l with
  | nil => intro n k h1 h2; simp at h2
  | cons a t ih =>
    intro n k h1 h2
    cases n with
    | zero => omega
    | succ m =>
      cases k with
      | zero => simp [List.take_succ_cons]
      | succ j =>
        simp only [List.getD_cons_succ, List.take_succ_cons]
        exact List.mem_cons_of_mem a (ih m j (by omega) (by simpa using h2))

/-- Helper: the `k`-th ingested input, elementwise. -/
theorem ingestInputs_getD (blockSize : Nat) :
    ∀ (ins : List FftInputState) (outer : List (List ℚ)) (k : Nat)
      (d : FftInputState),
      k < ins.length →
      (ingestInputs blockSize ins outer).getD k d
        = { ins.getD k d with
            ringBuffer := (ins.getD k d).ringBuffer
              ++ (outer.getD k []).take blockSize } := by
  intro ins
  induction ins with
  | nil => intro outer k d hk; simp at hk
  | cons inp rest ih =>
    intro outer k d hk
    cases k with
    | zero =>
      cases outer with
      | nil => simp [ingestInputs]
      | cons b t => simp [ingestInputs]
    | succ m =>
      have hm : m < rest.length := by simpa using hk
      cases outer with
      | nil =>
        simp only [ingestInputs, List.getD_cons_succ]
        have := ih [] m d hm
        simpa using this
      | cons b t =>
        simp only [ingestInputs, List.getD_cons_succ, List.tail_cons]
        exact ih t m d hm

/-- C10: ingest and egress use different block-size sources.  Per call,
every input ring buffer is extended with exactly `st.blockSize` (the value
stored by `allocate`/`resize_buffers`) samples of its outer input, while
egress pops `envBlockSize` (the per-call `inputs.block_size()`) samples per
non-underrun output; and if an outer input buffer is shorter than the
stored block size, the ingest slice panics. -/
theorem block_size_sources :
    (∀ (blockSize : Nat) (ins : List FftInputState) (outer : List (List ℚ))
       (k : Nat) (d : FftInputState),
      k < ins.length → blockSize ≤ (outer.getD k []).length →
      ((ingestInputs blockSize ins outer).getD k d).ringBuffer.length
        = (ins.getD k d).ringBuffer.length + blockSize) ∧
    (∀ (envB : Nat) (outs : List FftOutputState) (k : Nat),
      k < outs.length →
      envB ≤ (outs.getD k ⟨[], []⟩).ringBuffer.length →
      ∃ w, (egress envB outs).2.getD k none = some w ∧ w.length = envB ∧
        ((egress envB outs).1.getD k ⟨[], []⟩).ringBuffer.length
          = (outs.getD k ⟨[], []⟩).ringBuffer.length - envB) ∧
    (∀ (nFft : Nat)
       (runFrame : List (List ℚ) → Except ProcessNodeError (List (List ℚ)))
       (st : FftGraphState) (outer : List (List ℚ)) (envB k : Nat),
      st.inputs ≠ [] → k < st.inputs.length →
      (outer.getD k []).length < st.blockSize →
      processInner nFft runFrame st outer envB = .panic) := by
  refine ⟨?_, ?_, ?_⟩
  · intro blockSize ins outer k d hk hlong
    rw [ingestInputs_getD blockSize ins outer k d hk]
    simp only [List.length_append, List.length_take]
    omega
  · intro envB outs k hk hfull
    have hnu : ¬ (outs.getD k ⟨[], []⟩).ringBuffer.length < envB := by omega
    refine ⟨(outs.getD k ⟨[], []⟩).ringBuffer.take envB, ?_, ?_, ?_⟩
    · unfold egress
      dsimp only
      rw [getD_map_lt _ outs k hk ⟨[], []⟩ none]
      exact if_neg hnu
    · rw [List.length_take]
      omega
    · unfold egress
      dsimp only
      rw [getD_map_lt _ outs k hk ⟨[], []⟩ (⟨[], []⟩ : FftOutputState)]
      rw [if_neg hnu]
      simp only [List.length_drop]
  · intro nFft runFrame st outer envB k hne hk hshort
    unfold processInner
    rw [if_neg hne]
    by_cases h2 : outer.length < st.inputs.length
    · rw [if_pos h2]
    · rw [if_neg h2]
      have h3 : ∃ b ∈ outer.take st.inputs.length, b.length < st.blockSize :=
        ⟨outer.getD k [],
         getD_take_mem [] outer st.inputs.length k hk (by omega), hshort⟩
      rw [if_pos h3]

/-- Witness for C10 on concrete data. -/
theorem block_size_sources_witness :
    ((ingestInputs 2 [{ ringBuffer := [9], timeDomain := [] }]
        [[1, 2, 3]]).getD 0
      { ringBuffer := [], timeDomain := [] }).ringBuffer.length = 1 + 2 ∧
    (∃ w, (egress 1 [⟨[5, 6], [0]⟩]).2.getD 0 none = some w ∧ w.length = 1 ∧
      ((egress 1 [⟨[5, 6], [0]⟩]).1.getD 0 ⟨[], []⟩).ringBuffer.length
        = 2 - 1) ∧
    processInner 4 (fun staged => .ok staged)
      { blockSize := 3, hopLength := 1, window := [1],
        inputs := [{ ringBuffer := [], timeDomain := [] }], outputs := [] }
      [[1, 2]] 1 = .panic :=
  ⟨(block_size_sources.1 2 [{ ringBuffer := [9], timeDomain := [] }]
      [[1, 2, 3]] 0 { ringBuffer := [], timeDomain := [] }
      (by decide) (by decide)),
   (block_size_sources.2.1 1 [⟨[5, 6], [0]⟩] 0 (by decide) (by decide)),
   (block_size_sources.2.2 4 (fun staged => .ok staged)
      { blockSize := 3, hopLength := 1, window := [1],
        inputs := [{ ringBuffer := [], timeDomain := [] }], outputs := [] }
      [[1, 2]] 1 0 (by decide) (by decide) (by decide))⟩

end RaugFft
